import Mathlib

/-!
Verification development for two subsystems of the repository:
the block-download collection (`core/network/src/protocol/sync/blocks.rs`)
and the versioned wasm runtime cache (`core/executor/src/wasm_runtime.rs`).
Block numbers (`NumberFor<B>`), peer ids and hashes are modelled as `Nat`;
`u32` casts in the source are modelled with explicit `% 2^32`.
-/

set_option autoImplicit false

universe u v

/-! ### Association-list maps

`BTreeMap` is modelled as a list of key-value pairs kept sorted by strictly
ascending key (`mapInsert` is the ordered insert); `HashMap` is modelled as a
list of key-value pairs with unique keys (`ainsert` replaces in place and
appends fresh keys).  `alookup` returns the first binding of a key and
`aremove` drops it. -/

variable {κ : Type u} {α : Type v} [DecidableEq κ]

def alookup : List (κ × α) → κ → Option α
  | [], _ => none
  | (k, v) :: t, k2 => if k2 = k then some v else alookup t k2

def ainsert (k : κ) (v : α) : List (κ × α) → List (κ × α)
  | [] => [(k, v)]
  | (k2, v2) :: t => if k = k2 then (k, v) :: t else (k2, v2) :: ainsert k v t

def aremove (k : κ) : List (κ × α) → List (κ × α)
  | [] => []
  | (k2, v2) :: t => if k = k2 then t else (k2, v2) :: aremove k t

/-- Ordered insert for the `BTreeMap` model (keys `Nat`, ascending). -/
def mapInsert (k : Nat) (v : α) : List (Nat × α) → List (Nat × α)
  | [] => [(k, v)]
  | (k2, v2) :: t =>
    if k < k2 then (k, v) :: (k2, v2) :: t
    else if k = k2 then (k, v) :: t
    else (k2, v2) :: mapInsert k v t

namespace Sync

/-! ### Data model of `BlockCollection` (blocks.rs)

`β` stands for the wire type `message::BlockData<B>`; peers are `Nat`. -/

/-- `BlockData`: one received block plus the peer we received it from. -/
structure BlockData (β : Type u) where
  block : β
  origin : Option Nat
  deriving DecidableEq

/-- `BlockRangeState`: `Downloading { len, downloading }` or `Complete(blocks)`.
The second `downloading` field of the source is named `active` here. -/
inductive BlockRangeState (β : Type u) where
  | downloading (len : Nat) (active : Nat)
  | complete (blocks : List (BlockData β))
  deriving DecidableEq

/-- `BlockRangeState::len`: for `Complete`, the source computes
`(blocks.len() as u32).into()`, hence the `% 2^32`. -/
def BlockRangeState.len {β : Type u} : BlockRangeState β → Nat
  | .downloading l _ => l
  | .complete bs => bs.length % 4294967296

/-- `BlockCollection`: ordered map of ranges plus per-peer reservations. -/
structure BlockCollection (β : Type u) where
  blocks : List (Nat × BlockRangeState β)
  peer_requests : List (Nat × Nat)
  deriving DecidableEq

variable {β : Type u}

/-- `BlockCollection::new` / `Default`. -/
def BlockCollection.new : BlockCollection β := ⟨[], []⟩

/-- `BlockCollection::clear`. -/
def clear (_st : BlockCollection β) : BlockCollection β := ⟨[], []⟩

/-- `BlockCollection::insert` (lines 78-96). -/
def insert (st : BlockCollection β) (start : Nat) (blocks : List β) (who : Nat) :
    BlockCollection β :=
  if blocks.isEmpty then st
  else
    let ignore : Bool :=
      match alookup st.blocks start with
      | some (BlockRangeState.downloading _ _) => false
      | some (BlockRangeState.complete existing) => decide (blocks.length ≤ existing.length)
      | none => false
    if ignore then st
    else
      let wrapped := BlockRangeState.complete (blocks.map fun b => ⟨b, some who⟩)
      { st with blocks := mapInsert start wrapped st.blocks }

/-- The range-selection loop of `needed_blocks` (lines 111-134).  `prev` is the
previously visited entry, `rest` the not-yet-visited entries in ascending key
order; returns the tentative range (as a pair `(start, end)`) together with the
`downloading` count of the joined range (0 for fresh ranges). -/
def nbWalk (first count maxParallel : Nat) :
    Option (Nat × BlockRangeState β) → List (Nat × BlockRangeState β) → (Nat × Nat) × Nat
  | some (s, BlockRangeState.downloading len active), rest =>
    if active < maxParallel then ((s, s + len), active)
    else
      match rest with
      | [] => ((s + len, s + len + count), 0)
      | (ns, nr) :: t =>
        if s + len < ns then ((s + len, min ns (s + len + count)), 0)
        else nbWalk first count maxParallel (some (ns, nr)) t
  | some (s, BlockRangeState.complete bs), rest =>
    let l := bs.length % 4294967296
    match rest with
    | [] => ((s + l, s + l + count), 0)
    | (ns, nr) :: t =>
      if s + l < ns then ((s + l, min ns (s + l + count)), 0)
      else nbWalk first count maxParallel (some (ns, nr)) t
  | none, [] => ((first, first + count), 0)
  | none, (s, r) :: t =>
    if s > first then ((first, min (first + count) s), 0)
    else nbWalk first count maxParallel (some (s, r)) t

/-- Result of `needed_blocks`: the source returns `Option<Range>` but may also
`panic!` on the post-clamp empty range (line 146-149). -/
inductive NBResult (β : Type u) where
  | panicked
  | noneResult
  | someResult (range : Nat × Nat) (st : BlockCollection β)
  deriving DecidableEq

/-- Range of a `someResult`, `none` otherwise. -/
def NBResult.range? : NBResult β → Option (Nat × Nat)
  | .someResult r _ => some r
  | _ => none

/-- State carried by the result; unchanged state for `noneResult` (the source
returns before mutating), `none` for a panic. -/
def NBResult.state? (st : BlockCollection β) : NBResult β → Option (BlockCollection β)
  | .panicked => none
  | .noneResult => some st
  | .someResult _ st2 => some st2

/-- `BlockCollection::needed_blocks` (lines 99-151).  In the source the
`peer_requests` / `blocks` insertions (lines 141-145) happen before the empty
range check, but a panic aborts, so performing them only in the non-panicking
branch is observationally equivalent. -/
def needed_blocks (st : BlockCollection β) (who count peer_best common maxParallel : Nat) :
    NBResult β :=
  let first_different := common + 1
  let countN := count % 4294967296
  let wd := nbWalk first_different countN maxParallel none st.blocks
  if wd.1.1 > peer_best then NBResult.noneResult
  else
    let rend := min (peer_best + 1) wd.1.2
    if rend ≤ wd.1.1 then NBResult.panicked
    else
      let newBlocks := mapInsert wd.1.1
        (BlockRangeState.downloading (rend - wd.1.1) (wd.2 + 1)) st.blocks
      NBResult.someResult (wd.1.1, rend)
        { blocks := newBlocks, peer_requests := ainsert who wd.1.1 st.peer_requests }

/-- The drain loop of `BlockCollection::drain` (lines 157-170): returns the
drained blocks and the start keys marked for removal. -/
def drainLoop (prev : Nat) : List (Nat × BlockRangeState β) → List (BlockData β) × List Nat
  | [] => ([], [])
  | (s, r) :: t =>
    match r with
    | BlockRangeState.complete bs =>
      if s ≤ prev then
        let res := drainLoop (s + bs.length % 4294967296) t
        (bs ++ res.1, s :: res.2)
      else ([], [])
    | _ => ([], [])

/-- `BlockCollection::drain` (lines 154-176): collect the contiguous complete
prefix, then remove the collected ranges. -/
def drain (st : BlockCollection β) (from_ : Nat) : List (BlockData β) × BlockCollection β :=
  let res := drainLoop from_ st.blocks
  (res.1, { st with blocks := res.2.foldl (fun m k => aremove k m) st.blocks })

/-- `BlockCollection::clear_peer_download` (lines 178-200). -/
def clear_peer_download (st : BlockCollection β) (who : Nat) : BlockCollection β :=
  match alookup st.peer_requests who with
  | none => st
  | some start =>
    let pr := aremove who st.peer_requests
    match alookup st.blocks start with
    | some (BlockRangeState.downloading len active) =>
      if active > 1 then
        let newBlocks := mapInsert start (BlockRangeState.downloading len (active - 1)) st.blocks
        { blocks := newBlocks, peer_requests := pr }
      else
        { blocks := aremove start st.blocks, peer_requests := pr }
    | _ => { st with peer_requests := pr }

/-- Modelled from the spec (§4.2 `drain`): direct recursive description of the
drain algorithm — walk the entries in key order, append the blocks of each
`Complete` entry whose start is `≤ prev`, advance `prev` by the entry's
length, drop the entry; stop at the first other entry, keeping the rest.
Used as the specification side of the refinement claim about `drain`. -/
def drainSpec (prev : Nat) :
    List (Nat × BlockRangeState β) → List (BlockData β) × List (Nat × BlockRangeState β)
  | [] => ([], [])
  | (s, r) :: t =>
    match r with
    | BlockRangeState.complete bs =>
      if s ≤ prev then
        let res := drainSpec (s + (BlockRangeState.complete bs).len) t
        (bs ++ res.1, res.2)
      else ([], (s, r) :: t)
    | _ => ([], (s, r) :: t)

/-! ### Invariants (spec §3) -/

/-- Number of `peer_requests` entries whose value is the start height `s`. -/
def countPR (pr : List (Nat × Nat)) (s : Nat) : Nat :=
  (pr.filter fun e => e.2 == s).length

/-- Whether a lookup result is a `Downloading` range. -/
def isDownB : Option (BlockRangeState β) → Bool
  | some (BlockRangeState.downloading _ _) => true
  | _ => false

/-- A `Downloading` entry's `downloading` field agrees with the number of
reservations pointing at its start key. -/
def entryOkB (pr : List (Nat × Nat)) : Nat × BlockRangeState β → Bool
  | (k, BlockRangeState.downloading _ active) => active == countPR pr k
  | _ => true

/-- A `Downloading` entry has positive length. -/
def posLenB : Nat × BlockRangeState β → Bool
  | (_, BlockRangeState.downloading len _) => decide (0 < len)
  | _ => true

/-- The claimed invariant: every reservation points at a `Downloading` range,
and each `Downloading` range's `downloading` count equals the number of
reservations pointing at it. -/
def Inv (st : BlockCollection β) : Prop :=
  (∀ e ∈ st.peer_requests, isDownB (alookup st.blocks e.2) = true) ∧
  (∀ e ∈ st.blocks, entryOkB st.peer_requests e = true)

/-- Keys of the `BTreeMap` model are strictly ascending. -/
def SortedKeys (l : List (Nat × BlockRangeState β)) : Prop :=
  l.Pairwise fun a b => a.1 < b.1

/-- Representation invariant plus the claimed invariant: sorted range keys,
at most one reservation per peer, positive `Downloading` lengths, `Inv`. -/
def Good (st : BlockCollection β) : Prop :=
  SortedKeys st.blocks ∧ (st.peer_requests.map Prod.fst).Nodup ∧
    (∀ e ∈ st.blocks, posLenB e = true) ∧ Inv st

/-! ### Operation sequences -/

/-- One call on a `BlockCollection`. -/
inductive Op (β : Type u) where
  | needed (who count peer_best common maxParallel : Nat)
  | ins (start : Nat) (blocks : List β) (who : Nat)
  | drainOp (from_ : Nat)
  | clearPeer (who : Nat)
  | clearAll

/-- Apply one call; `none` when `needed_blocks` panics. -/
def applyOp (st : BlockCollection β) : Op β → Option (BlockCollection β)
  | .needed who c pb cm mp => (needed_blocks st who c pb cm mp).state? st
  | .ins s bs w => some (insert st s bs w)
  | .drainOp f => some (drain st f).2
  | .clearPeer w => some (clear_peer_download st w)
  | .clearAll => some (clear st)

/-- Caller discipline: `needed_blocks` only for a peer without an outstanding
reservation, `insert` only at a start height not reserved by any peer. -/
def validOpB (st : BlockCollection β) : Op β → Bool
  | .needed who _ _ _ _ => (alookup st.peer_requests who).isNone
  | .ins s _ _ => countPR st.peer_requests s == 0
  | _ => true

/-- Run a sequence of calls; `none` when some call panics. -/
def runOps : BlockCollection β → List (Op β) → Option (BlockCollection β)
  | st, [] => some st
  | st, op :: t =>
    match applyOp st op with
    | none => none
    | some st2 => runOps st2 t

/-- Every call of the sequence respects the caller discipline at its state. -/
def goodRunB : BlockCollection β → List (Op β) → Bool
  | _, [] => true
  | st, op :: t =>
    validOpB st op &&
      match applyOp st op with
      | none => true
      | some st2 => goodRunB st2 t

end Sync

namespace Wasm

/-! ### Data model of `RuntimesCache` (wasm_runtime.rs)

Guest instances have abstract type `I`, decoded `RuntimeVersion` records have
abstract type `V`; hashes (`H256`, `[u8; 32]`) are `Nat`, byte buffers are
`List Nat`. -/

/-- `WasmExecutionMethod` (lines 47-53). -/
inductive WasmExecutionMethod where
  | Interpreted
  | Compiled
  deriving DecidableEq

/-- Modelled from the spec (§6, §7): the `WasmError` kinds of `crate::error`,
which is not under src/. -/
inductive WasmError where
  | CodeNotFound
  | Instantiation (msg : String)
  | InvalidMemoryReference
  deriving DecidableEq

/-- Modelled from the spec (§7): the executor `Error` of `crate::error` (not
under src/); only the variant produced by `fetch_runtime` is needed. -/
inductive Error where
  | InvalidCode (msg : String)
  deriving DecidableEq

/-- The `Externalities` capability (spec §6), restricted to the reads the
cache performs. -/
structure Externalities where
  original_storage : String → Option (List Nat)
  original_storage_hash : String → Option Nat
  storage : String → Option (List Nat)

/-- Modelled from the spec (§6): well-known key `:code`
(`primitives::storage::well_known_keys` is not under src/). -/
def CODE : String := ":code"

/-- Modelled from the spec (§6): well-known key `:heappages`. -/
def HEAP_PAGES : String := ":heappages"

/-- Value of a list of bytes read little-endian. -/
def leBytes : List Nat → Nat
  | [] => 0
  | b :: t => b % 256 + 256 * leBytes t

/-- Modelled from the spec (§6: `:heappages` is a little-endian `u64`; the
`codec` crate is not under src/): SCALE decode of a `u64` reads exactly 8
little-endian bytes and fails on shorter input. -/
def decodeU64 (bs : List Nat) : Option Nat :=
  if 8 ≤ bs.length then some (leBytes (bs.take 8)) else none

/-- Outcome of a guest call run inside the `safe_call` panic boundary. -/
inductive CallOutcome (I : Type u) where
  | panicked
  | errored (msg : String)
  | ok (bytes : List Nat) (inst : I)

/-- Modelled from the spec (§6 engine adapter and codec): the external
capabilities `fetch_runtime` consumes — `wasmi_execution::create_instance` /
`wasmtime::create_instance` (keyed by execution method), the instance
operations, and `RuntimeVersion::decode`; none of them are under src/. -/
structure EngineModel (I : Type u) (V : Type v) where
  create_instance : WasmExecutionMethod → List Nat → Nat → Except WasmError I
  update_heap_pages : I → Nat → Bool × I
  call : I → Externalities → String → List Nat → CallOutcome I
  decodeVersion : List Nat → Option V

/-- `VersionedRuntime` (lines 56-60). -/
structure VersionedRuntime (I : Type u) (V : Type v) where
  runtime : I
  version : V

/-- `RuntimesCache` (lines 74-79): map from `(method, code_hash)` to a cached
build result. -/
structure RuntimesCache (I : Type u) (V : Type v) where
  instances : List ((WasmExecutionMethod × Nat) × Except WasmError (VersionedRuntime I V))

variable {I : Type u} {V : Type v}

/-- `create_wasm_runtime_with_code` (lines 179-193). -/
def create_wasm_runtime_with_code (eng : EngineModel I V) (wasm_method : WasmExecutionMethod)
    (heap_pages : Nat) (code : List Nat) : Except WasmError I :=
  eng.create_instance wasm_method code heap_pages

/-- `create_versioned_wasm_runtime` (lines 195-226). -/
def create_versioned_wasm_runtime (eng : EngineModel I V) (ext : Externalities)
    (wasm_method : WasmExecutionMethod) (heap_pages : Nat) :
    Except WasmError (VersionedRuntime I V) :=
  match ext.original_storage CODE with
  | none => Except.error WasmError.CodeNotFound
  | some code =>
    match create_wasm_runtime_with_code eng wasm_method heap_pages code with
    | Except.error e => Except.error e
    | Except.ok runtime =>
      match eng.call runtime ext ("Core_version") [] with
      | CallOutcome.panicked =>
        Except.error (WasmError.Instantiation ("panic in call to get runtime version"))
      | CallOutcome.errored e =>
        Except.error (WasmError.Instantiation ("failed to call \"Core_version\": " ++ e))
      | CallOutcome.ok encoded_version rt2 =>
        match eng.decodeVersion encoded_version with
        | none =>
          Except.error (WasmError.Instantiation ("failed to decode \"Core_version\" result"))
        | some version => Except.ok ⟨rt2, version⟩

/-- Modelled from the spec (§4.1: a cached failure is re-surfaced as
`InvalidCode(formatted)`): the `format!("{:?}", e)` rendering of a cached
`WasmError`; the `Debug` derivation lives in `crate::error`, not under src/. -/
def wasmErrorFormat : WasmError → String
  | WasmError.CodeNotFound => "CodeNotFound"
  | WasmError.Instantiation m => "Instantiation(\"" ++ m ++ "\")"
  | WasmError.InvalidMemoryReference => "InvalidMemoryReference"

/-- Heap-pages resolution of `fetch_runtime` (lines 126-129): the `:heappages`
storage value decoded as `u64`, with `default_heap_pages` as fallback. -/
def heapPagesFor (ext : Externalities) (default_heap_pages : Nat) : Nat :=
  match ext.storage HEAP_PAGES with
  | some pages =>
    match decodeU64 pages with
    | some v => v
    | none => default_heap_pages
  | none => default_heap_pages

/-- `RuntimesCache::fetch_runtime` (lines 116-161).  Returns the call result
(`runtime, version, code_hash` on success) together with the updated cache. -/
def fetch_runtime (eng : EngineModel I V) (cache : RuntimesCache I V) (ext : Externalities)
    (wasm_method : WasmExecutionMethod) (default_heap_pages : Nat) :
    Except Error (I × V × Nat) × RuntimesCache I V :=
  match ext.original_storage_hash CODE with
  | none => (Except.error (Error.InvalidCode ("`CODE` not found in storage.")), cache)
  | some code_hash =>
    let heap_pages := heapPagesFor ext default_heap_pages
    let key := (wasm_method, code_hash)
    let newEntry : Except WasmError (VersionedRuntime I V) :=
      match alookup cache.instances key with
      | some (Except.ok cached) =>
        let u := eng.update_heap_pages cached.runtime heap_pages
        if u.1 then Except.ok { cached with runtime := u.2 }
        else create_versioned_wasm_runtime eng ext wasm_method heap_pages
      | some (Except.error e) => Except.error e
      | none => create_versioned_wasm_runtime eng ext wasm_method heap_pages
    let cache2 : RuntimesCache I V := ⟨ainsert key newEntry cache.instances⟩
    match newEntry with
    | Except.ok vr => (Except.ok (vr.runtime, vr.version, code_hash), cache2)
    | Except.error e => (Except.error (Error.InvalidCode (wasmErrorFormat e)), cache2)

end Wasm

/-! ## Lemmas about the association-list maps -/

section MapLemmas

variable {κ : Type u} {α : Type v} [DecidableEq κ]

theorem alookup_ainsert_self (l : List (κ × α)) (k : κ) (v : α) :
    alookup (ainsert k v l) k = some v := by
  induction l with
  | nil => simp [ainsert, alookup]
  | cons e t ih =>
    obtain ⟨k2, v2⟩ := e
    by_cases h : k = k2
    · subst h; simp [ainsert, alookup]
    · simp [ainsert, alookup, h, ih]

theorem alookup_ainsert_ne (l : List (κ × α)) (k k2 : κ) (v : α) (h : k2 ≠ k) :
    alookup (ainsert k v l) k2 = alookup l k2 := by
  induction l with
  | nil => simp [ainsert, alookup, h]
  | cons e t ih =>
    obtain ⟨k3, v3⟩ := e
    by_cases h2 : k = k3
    · subst h2; simp [ainsert, alookup, h]
    · by_cases h3 : k2 = k3 <;> simp [ainsert, alookup, h2, h3, ih]

theorem ainsert_of_alookup_some (l : List (κ × α)) (k : κ) (v : α)
    (h : alookup l k = some v) : ainsert k v l = l := by
  induction l with
  | nil => simp [alookup] at h
  | cons e t ih =>
    obtain ⟨k2, v2⟩ := e
    by_cases h2 : k = k2
    · subst h2; simp [alookup] at h; simp [ainsert, h]
    · have h3 : ¬(k = k2) := h2
      simp [alookup, h2] at h
      simp [ainsert, h3, ih h]

theorem ainsert_of_alookup_none (l : List (κ × α)) (k : κ) (v : α)
    (h : alookup l k = none) : ainsert k v l = l ++ [(k, v)] := by
  induction l with
  | nil => simp [ainsert]
  | cons e t ih =>
    obtain ⟨k2, v2⟩ := e
    by_cases h2 : k = k2
    · subst h2; simp [alookup] at h
    · simp [alookup, h2] at h
      simp [ainsert, h2, ih h]

theorem alookup_mem (l : List (κ × α)) (k : κ) (v : α) :
    alookup l k = some v → (k, v) ∈ l := by
  induction l with
  | nil => simp [alookup]
  | cons e t ih =>
    obtain ⟨k2, v2⟩ := e
    by_cases h2 : k = k2
    · subst h2; simp [alookup]; intro h; exact Or.inl h.symm
    · simp [alookup, h2]
      intro h
      exact ih h

theorem alookup_eq_none (l : List (κ × α)) (k : κ) :
    alookup l k = none ↔ k ∉ l.map Prod.fst := by
  induction l with
  | nil => simp [alookup]
  | cons e t ih =>
    obtain ⟨k2, v2⟩ := e
    by_cases h2 : k = k2
    · subst h2; simp [alookup]
    · simp [alookup, h2, ih]

theorem mem_alookup (l : List (κ × α)) (k : κ) (v : α)
    (hnd : (l.map Prod.fst).Nodup) (h : (k, v) ∈ l) : alookup l k = some v := by
  induction l with
  | nil => simp at h
  | cons e t ih =>
    obtain ⟨k2, v2⟩ := e
    simp only [List.map_cons, List.nodup_cons] at hnd
    rcases List.mem_cons.mp h with h1 | h1
    · obtain ⟨rfl, rfl⟩ := Prod.mk.injEq .. ▸ h1
      simp [alookup]
    · have hk : k ≠ k2 := by
        rintro rfl
        exact hnd.1 (List.mem_map.mpr ⟨(k, v), h1, rfl⟩)
      simp [alookup, hk, ih hnd.2 h1]

theorem aremove_sublist (k : κ) (l : List (κ × α)) : (aremove k l).Sublist l := by
  induction l with
  | nil => simp [aremove]
  | cons e t ih =>
    obtain ⟨k2, v2⟩ := e
    by_cases h2 : k = k2
    · simp [aremove, h2]
    · simp only [aremove, if_neg h2]
      exact List.Sublist.cons₂ (k2, v2) ih

theorem mem_aremove (k : κ) (l : List (κ × α)) (e : κ × α) (h : e ∈ aremove k l) : e ∈ l :=
  (aremove_sublist k l).mem h

theorem alookup_aremove_ne (l : List (κ × α)) (k k2 : κ) (h : k2 ≠ k) :
    alookup (aremove k l) k2 = alookup l k2 := by
  induction l with
  | nil => simp [aremove]
  | cons e t ih =>
    obtain ⟨k3, v3⟩ := e
    by_cases h2 : k = k3
    · subst h2; simp [aremove, alookup, h]
    · by_cases h3 : k2 = k3 <;> simp [aremove, alookup, h2, h3, ih]

theorem aremove_of_alookup_none (l : List (κ × α)) (k : κ)
    (h : alookup l k = none) : aremove k l = l := by
  induction l with
  | nil => simp [aremove]
  | cons e t ih =>
    obtain ⟨k2, v2⟩ := e
    by_cases h2 : k = k2
    · subst h2; simp [alookup] at h
    · simp [alookup, h2] at h
      simp [aremove, h2, ih h]

theorem mem_aremove_ne (l : List (κ × α)) (k : κ)
    (hnd : (l.map Prod.fst).Nodup) (e : κ × α) (h : e ∈ aremove k l) : e.1 ≠ k := by
  induction l with
  | nil => simp [aremove] at h
  | cons x t ih =>
    obtain ⟨k2, v2⟩ := x
    simp only [List.map_cons, List.nodup_cons] at hnd
    by_cases h2 : k = k2
    · subst h2
      simp only [aremove, if_pos rfl] at h
      rintro rfl
      exact hnd.1 (List.mem_map.mpr ⟨e, h, rfl⟩)
    · simp only [aremove, if_neg h2] at h
      rcases List.mem_cons.mp h with h1 | h1
      · subst h1; simpa using Ne.symm h2
      · exact ih hnd.2 h1

theorem aremove_nodup (l : List (κ × α)) (k : κ)
    (hnd : (l.map Prod.fst).Nodup) : ((aremove k l).map Prod.fst).Nodup :=
  ((aremove_sublist k l).map Prod.fst).nodup hnd

end MapLemmas

section MapInsertLemmas

variable {α : Type v}

theorem alookup_mapInsert_self (l : List (Nat × α)) (k : Nat) (v : α) :
    alookup (mapInsert k v l) k = some v := by
  induction l with
  | nil => simp [mapInsert, alookup]
  | cons e t ih =>
    obtain ⟨k2, v2⟩ := e
    rcases Nat.lt_trichotomy k k2 with h | h | h
    · simp [mapInsert, h, alookup]
    · subst h; simp [mapInsert, alookup]
    · have h1 : ¬ k < k2 := by omega
      have h2 : ¬ k = k2 := by omega
      have h3 : ¬ k2 = k := by omega  -- for alookup head test
      simp [mapInsert, h1, h2, alookup, Ne.symm h2, ih]

theorem alookup_mapInsert_ne (l : List (Nat × α)) (k k2 : Nat) (v : α) (h : k2 ≠ k) :
    alookup (mapInsert k v l) k2 = alookup l k2 := by
  induction l with
  | nil => simp [mapInsert, alookup, h]
  | cons e t ih =>
    obtain ⟨k3, v3⟩ := e
    rcases Nat.lt_trichotomy k k3 with h1 | h1 | h1
    · simp [mapInsert, h1, alookup, h]
    · subst h1; simp [mapInsert, alookup, h]
    · have h2 : ¬ k < k3 := by omega
      have h3 : ¬ k = k3 := by omega
      by_cases h4 : k2 = k3 <;> simp [mapInsert, h2, h3, alookup, h4, ih]

theorem mem_mapInsert (l : List (Nat × α)) (k : Nat) (v : α) (e : Nat × α)
    (h : e ∈ mapInsert k v l) : e = (k, v) ∨ e ∈ l := by
  induction l with
  | nil => simpa [mapInsert] using h
  | cons x t ih =>
    obtain ⟨k2, v2⟩ := x
    rcases Nat.lt_trichotomy k k2 with h1 | h1 | h1
    · rw [mapInsert, if_pos h1] at h
      simpa using List.mem_cons.mp h
    · subst h1
      have h2 : ¬ k < k := by omega
      rw [mapInsert, if_neg h2, if_pos rfl] at h
      rcases List.mem_cons.mp h with h3 | h3
      · exact Or.inl h3
      · exact Or.inr (List.mem_cons.mpr (Or.inr h3))
    · have h2 : ¬ k < k2 := by omega
      have h3 : ¬ k = k2 := by omega
      rw [mapInsert, if_neg h2, if_neg h3] at h
      rcases List.mem_cons.mp h with h4 | h4
      · exact Or.inr (List.mem_cons.mpr (Or.inl h4))
      · rcases ih h4 with h5 | h5
        · exact Or.inl h5
        · exact Or.inr (List.mem_cons.mpr (Or.inr h5))

theorem mapInsert_pairwise (l : List (Nat × α)) (k : Nat) (v : α)
    (h : l.Pairwise fun a b => a.1 < b.1) :
    (mapInsert k v l).Pairwise fun a b => a.1 < b.1 := by
  induction l with
  | nil => simp [mapInsert]
  | cons e t ih =>
    obtain ⟨k2, v2⟩ := e
    rw [List.pairwise_cons] at h
    rcases Nat.lt_trichotomy k k2 with h1 | h1 | h1
    · rw [mapInsert, if_pos h1]
      refine List.pairwise_cons.mpr ⟨?_, List.pairwise_cons.mpr h⟩
      intro e2 he2
      rcases List.mem_cons.mp he2 with h3 | h3
      · subst h3; exact h1
      · exact lt_trans h1 (h.1 e2 h3)
    · subst h1
      have h2 : ¬ k < k := by omega
      rw [mapInsert, if_neg h2, if_pos rfl]
      exact List.pairwise_cons.mpr h
    · have h2 : ¬ k < k2 := by omega
      have h3 : ¬ k = k2 := by omega
      rw [mapInsert, if_neg h2, if_neg h3]
      refine List.pairwise_cons.mpr ⟨?_, ih h.2⟩
      intro e2 he2
      rcases mem_mapInsert t k v e2 he2 with h4 | h4
      · subst h4; exact h1
      · exact h.1 e2 h4

theorem mem_mapInsert_sorted (l : List (Nat × α)) (k : Nat) (v : α) (e : Nat × α)
    (hs : l.Pairwise fun a b => a.1 < b.1) (h : e ∈ mapInsert k v l) :
    e = (k, v) ∨ (e ∈ l ∧ e.1 ≠ k) := by
  induction l with
  | nil => simp [mapInsert] at h; exact Or.inl h
  | cons x t ih =>
    obtain ⟨k2, v2⟩ := x
    rw [List.pairwise_cons] at hs
    rcases Nat.lt_trichotomy k k2 with h1 | h1 | h1
    · rw [mapInsert, if_pos h1] at h
      rcases List.mem_cons.mp h with h3 | h3
      · exact Or.inl h3
      · refine Or.inr ⟨h3, ?_⟩
        rcases List.mem_cons.mp h3 with h4 | h4
        · subst h4; omega
        · have := hs.1 e h4; omega
    · subst h1
      have h2 : ¬ k < k := by omega
      rw [mapInsert, if_neg h2, if_pos rfl] at h
      rcases List.mem_cons.mp h with h3 | h3
      · exact Or.inl h3
      · refine Or.inr ⟨List.mem_cons.mpr (Or.inr h3), ?_⟩
        have := hs.1 e h3; omega
    · have h2 : ¬ k < k2 := by omega
      have h3 : ¬ k = k2 := by omega
      rw [mapInsert, if_neg h2, if_neg h3] at h
      rcases List.mem_cons.mp h with h4 | h4
      · subst h4
        exact Or.inr ⟨List.mem_cons.mpr (Or.inl rfl), by simpa using Ne.symm h3⟩
      · rcases ih hs.2 h4 with h5 | h5
        · exact Or.inl h5
        · exact Or.inr ⟨List.mem_cons.mpr (Or.inr h5.1), h5.2⟩

theorem keys_nodup_of_pairwise (l : List (Nat × α))
    (h : l.Pairwise fun a b => a.1 < b.1) : (l.map Prod.fst).Nodup := by
  have h2 : (l.map Prod.fst).Pairwise (fun a b => a < b) := List.pairwise_map.mpr h
  exact h2.imp Nat.ne_of_lt

end MapInsertLemmas

namespace Sync

variable {β : Type u}

/-! ## Lemmas about `countPR` -/

theorem countPR_cons (e : Nat × Nat) (pr : List (Nat × Nat)) (s : Nat) :
    countPR (e :: pr) s = (if e.2 = s then 1 else 0) + countPR pr s := by
  by_cases h : e.2 = s <;> simp [countPR, List.filter_cons, h] <;> omega

theorem countPR_append_one (pr : List (Nat × Nat)) (p v s : Nat) :
    countPR (pr ++ [(p, v)]) s = countPR pr s + (if v = s then 1 else 0) := by
  by_cases h : v = s <;> simp [countPR, List.filter_append, List.filter_cons, h]

theorem countPR_eq_zero (pr : List (Nat × Nat)) (s : Nat) :
    countPR pr s = 0 ↔ ∀ e ∈ pr, e.2 ≠ s := by
  simp [countPR, List.length_eq_zero, List.filter_eq_nil]

theorem countPR_pos_of_mem (pr : List (Nat × Nat)) (e : Nat × Nat) (s : Nat)
    (h : e ∈ pr) (hv : e.2 = s) : 0 < countPR pr s :=
  List.length_pos_of_mem (List.mem_filter.mpr ⟨h, by simp [hv]⟩)

theorem countPR_pos_mem (pr : List (Nat × Nat)) (s : Nat) (h : 0 < countPR pr s) :
    ∃ e ∈ pr, e.2 = s := by
  obtain ⟨e, he⟩ := List.exists_mem_of_length_pos h
  have := List.mem_filter.mp he
  exact ⟨e, this.1, by simpa using this.2⟩

theorem two_le_length_of_mem_ne {γ : Type v} (l : List γ) (a b : γ)
    (ha : a ∈ l) (hb : b ∈ l) (hne : a ≠ b) : 2 ≤ l.length := by
  induction l with
  | nil => simp at ha
  | cons x t ih =>
    rcases List.mem_cons.mp ha with rfl | ha2
    · rcases List.mem_cons.mp hb with rfl | hb2
      · exact absurd rfl hne
      · have := List.length_pos_of_mem hb2
        simp only [List.length_cons]; omega
    · have := List.length_pos_of_mem ha2
      simp only [List.length_cons]; omega

theorem two_le_countPR (pr : List (Nat × Nat)) (e1 e2 : Nat × Nat) (s : Nat)
    (h1 : e1 ∈ pr) (h2 : e2 ∈ pr) (hne : e1 ≠ e2) (hv1 : e1.2 = s) (hv2 : e2.2 = s) :
    2 ≤ countPR pr s :=
  two_le_length_of_mem_ne _ e1 e2
    (List.mem_filter.mpr ⟨h1, by simp [hv1]⟩)
    (List.mem_filter.mpr ⟨h2, by simp [hv2]⟩) hne

theorem countPR_aremove (pr : List (Nat × Nat)) (p s : Nat)
    (hnd : (pr.map Prod.fst).Nodup) (h : alookup pr p = some s) (v : Nat) :
    countPR (aremove p pr) v = countPR pr v - (if s = v then 1 else 0) := by
  induction pr with
  | nil => simp [alookup] at h
  | cons e t ih =>
    obtain ⟨q, w⟩ := e
    simp only [List.map_cons, List.nodup_cons] at hnd
    by_cases h2 : p = q
    · subst h2
      simp [alookup] at h
      simp only [aremove, if_pos rfl]
      rw [countPR_cons, h]
      by_cases h3 : s = v <;> simp [h3] <;> omega
    · have h4 : ¬(p = q) := h2
      simp only [alookup, if_neg h4] at h
      have hm : (p, s) ∈ t := alookup_mem t p s h
      simp only [aremove, if_neg h4]
      rw [countPR_cons, countPR_cons, ih hnd.2 h]
      have hpos : 0 < countPR t s := countPR_pos_of_mem t (p, s) s hm rfl
      by_cases h3 : s = v
      · subst h3; by_cases h5 : w = s <;> simp [h5] <;> omega
      · by_cases h5 : w = v <;> simp [h3, h5]

/-! ## Drain refinement -/

theorem drainLoop_spec (l : List (Nat × BlockRangeState β)) :
    ∀ prev : Nat,
      (drainLoop prev l).1 = (drainSpec prev l).1 ∧
      ((drainLoop prev l).2.foldl (fun m k => aremove k m) l) = (drainSpec prev l).2 := by
  induction l with
  | nil => intro prev; simp [drainLoop, drainSpec]
  | cons e t ih =>
    intro prev
    obtain ⟨s, r⟩ := e
    cases r with
    | downloading len active => simp [drainLoop, drainSpec]
    | complete bs =>
      by_cases h : s ≤ prev
      · have ih2 := ih (s + bs.length % 4294967296)
        simp only [drainLoop, drainSpec, if_pos h, BlockRangeState.len]
        refine ⟨by rw [ih2.1], ?_⟩
        rw [List.foldl_cons]
        simp only [aremove, if_pos rfl]
        exact ih2.2
      · simp [drainLoop, drainSpec, if_neg h]

/-- C3: `drain(from)` walks the entries in ascending key order starting with
`prev = from`; each `Complete` entry with start key `≤ prev` contributes its
blocks to the output, advances `prev` by the entry's length and is removed; the
walk stops at the first entry that is not `Complete` or whose start key exceeds
`prev`, and all later entries stay in place.  Formally: `drain` coincides with
the direct recursive description `drainSpec` of exactly that walk. -/
theorem c3_drain_follows_spec (st : BlockCollection β) (from_ : Nat) :
    drain st from_ =
      ((drainSpec from_ st.blocks).1,
        { st with blocks := (drainSpec from_ st.blocks).2 }) := by
  have h := drainLoop_spec st.blocks from_
  unfold drain
  rw [Prod.mk.injEq]
  constructor
  · exact h.1
  · rw [BlockCollection.mk.injEq]
    exact ⟨h.2, rfl⟩

/-! ## Frame and error-model claims -/

/-- C10: `insert` and `drain` never modify `peer_requests`; `needed_blocks`
touches at most the calling peer's entry, `clear_peer_download` touches at
most the given peer's entry, and `clear` empties the map. -/
theorem c10_peer_requests_frame (st : BlockCollection β) :
    (∀ (start : Nat) (bs : List β) (who : Nat),
      (insert st start bs who).peer_requests = st.peer_requests) ∧
    (∀ from_ : Nat, (drain st from_).2.peer_requests = st.peer_requests) ∧
    (∀ who count peer_best common maxParallel r st2,
      needed_blocks st who count peer_best common maxParallel = NBResult.someResult r st2 →
      ∀ q, q ≠ who → alookup st2.peer_requests q = alookup st.peer_requests q) ∧
    (∀ who q, q ≠ who →
      alookup (clear_peer_download st who).peer_requests q = alookup st.peer_requests q) ∧
    (clear st).peer_requests = [] := by
  refine ⟨?_, ?_, ?_, ?_, rfl⟩
  · intro start bs who
    unfold insert
    split
    · rfl
    · dsimp only
      split
      · rfl
      · rfl
  · intro from_
    rfl
  · intro who count pb cm mp r st2 h q hq
    unfold needed_blocks at h
    dsimp only at h
    split at h
    · cases h
    · split at h
      · cases h
      · cases h
        exact alookup_ainsert_ne st.peer_requests who q _ hq
  · intro who q hq
    unfold clear_peer_download
    split
    · rfl
    · dsimp only
      split
      · split
        · exact alookup_aremove_ne st.peer_requests who q hq
        · exact alookup_aremove_ne st.peer_requests who q hq
      · exact alookup_aremove_ne st.peer_requests who q hq

/-- C4: the collection's operations are total; `insert` of an empty vector and
`clear_peer_download` of a peer without a reservation leave the state
unchanged, and `needed_blocks` panics exactly when the tentative range's start
is within the peer's best (so the clamp applies) and the post-clamp range is
empty (`end ≤ start`). -/
theorem c4_error_model :
    (∀ (st : BlockCollection β) (start who : Nat), insert st start ([] : List β) who = st) ∧
    (∀ (st : BlockCollection β) (who : Nat), alookup st.peer_requests who = none →
      clear_peer_download st who = st) ∧
    (∀ (st : BlockCollection β) (who count peer_best common maxParallel : Nat),
      needed_blocks st who count peer_best common maxParallel = NBResult.panicked ↔
        ((nbWalk (common + 1) (count % 4294967296) maxParallel none st.blocks).1.1 ≤ peer_best ∧
          min (peer_best + 1)
              (nbWalk (common + 1) (count % 4294967296) maxParallel none st.blocks).1.2 ≤
            (nbWalk (common + 1) (count % 4294967296) maxParallel none st.blocks).1.1)) := by
  refine ⟨?_, ?_, ?_⟩
  · intro st start who
    rfl
  · intro st who h
    unfold clear_peer_download
    rw [h]
  · intro st who count pb cm mp
    unfold needed_blocks
    dsimp only
    by_cases h1 : (nbWalk (cm + 1) (count % 4294967296) mp none st.blocks).1.1 > pb
    · rw [if_pos h1]
      constructor
      · intro h; cases h
      · intro h; omega
    · rw [if_neg h1]
      by_cases h2 : min (pb + 1) (nbWalk (cm + 1) (count % 4294967296) mp none st.blocks).1.2 ≤
          (nbWalk (cm + 1) (count % 4294967296) mp none st.blocks).1.1
      · rw [if_pos h2]
        exact ⟨fun _ => ⟨by omega, h2⟩, fun _ => rfl⟩
      · rw [if_neg h2]
        constructor
        · intro h; cases h
        · intro h; exact absurd h.2 h2

/-- C5: `insert(start, blocks, who)` ignores empty input; if the entry at
`start` is `Complete` with equal-or-greater length it is a no-op; otherwise
(also when the entry is `Downloading`) the entry at `start` is replaced by
`Complete` holding the given blocks in order, each wrapped with
`origin = Some(who)`, and no other entry changes. -/
theorem c5_insert_characterization (st : BlockCollection β) (start : Nat) (bs : List β)
    (who : Nat) :
    (bs = [] → insert st start bs who = st) ∧
    (∀ ex, alookup st.blocks start = some (BlockRangeState.complete ex) →
      bs.length ≤ ex.length → insert st start bs who = st) ∧
    (bs ≠ [] →
      (∀ ex, alookup st.blocks start = some (BlockRangeState.complete ex) →
        ex.length < bs.length) →
      (insert st start bs who).peer_requests = st.peer_requests ∧
      ∀ k, alookup (insert st start bs who).blocks k =
        if k = start then
          some (BlockRangeState.complete (bs.map fun b => ⟨b, some who⟩))
        else alookup st.blocks k) := by
  refine ⟨?_, ?_, ?_⟩
  · intro h
    subst h
    rfl
  · intro ex hex hle
    unfold insert
    by_cases hbe : bs.isEmpty
    · rw [if_pos hbe]
    · rw [if_neg hbe]
      dsimp only
      rw [hex]
      dsimp only
      rw [if_pos (by simpa using hle)]
  · intro hne hlt
    have hbe : ¬ bs.isEmpty := by simpa [List.isEmpty_iff] using hne
    have hstep : insert st start bs who =
        ⟨mapInsert start (BlockRangeState.complete (bs.map fun b => ⟨b, some who⟩)) st.blocks,
          st.peer_requests⟩ := by
      unfold insert
      rw [if_neg hbe]
      dsimp only
      rcases hb : alookup st.blocks start with _ | r
      · rfl
      · cases r with
        | downloading len active => rfl
        | complete ex =>
          dsimp only
          rw [if_neg (by simpa using Nat.not_le.mpr (hlt ex hb))]
    rw [hstep]
    refine ⟨rfl, ?_⟩
    intro k
    by_cases hk : k = start
    · subst hk
      rw [if_pos rfl]
      exact alookup_mapInsert_self st.blocks k _
    · rw [if_neg hk]
      exact alookup_mapInsert_ne st.blocks start k _ hk

/-! ## The range-selection walk -/

theorem nbWalk_spec (f c mp : Nat) (rest : List (Nat × BlockRangeState β)) :
    ∀ (prev : Option (Nat × BlockRangeState β)) (a b d : Nat),
      (prev.toList ++ rest).Pairwise (fun x y => x.1 < y.1) →
      (∀ e ∈ prev.toList ++ rest, posLenB e = true) →
      nbWalk f c mp prev rest = ((a, b), d) →
      (∀ e ∈ prev.toList, e.1 ≤ a) ∧
      (a = f ∨ ∃ e ∈ prev.toList ++ rest, e.1 ≤ a) ∧
      ((∃ len dl, (a, BlockRangeState.downloading len dl) ∈ prev.toList ++ rest ∧
          dl < mp ∧ d = dl ∧ b = a + len) ∨
        (d = 0 ∧ b ≤ a + c ∧
          ∀ len dl, (a, BlockRangeState.downloading len dl) ∉ prev.toList ++ rest)) := by
  induction rest with
  | nil =>
    intro prev a b d hS hP h
    cases prev with
    | none =>
      simp only [nbWalk, Prod.mk.injEq] at h
      obtain ⟨⟨rfl, rfl⟩, rfl⟩ := h
      refine ⟨by simp, Or.inl rfl, Or.inr ⟨rfl, Nat.le_refl _, ?_⟩⟩
      simp
    | some e =>
      obtain ⟨s, r⟩ := e
      cases r with
      | downloading len active =>
        by_cases hmp : active < mp
        · simp only [nbWalk, if_pos hmp, Prod.mk.injEq] at h
          obtain ⟨⟨rfl, rfl⟩, rfl⟩ := h
          refine ⟨by simp,
            Or.inr ⟨(s, BlockRangeState.downloading len active), by simp, Nat.le_refl _⟩,
            Or.inl ⟨len, active, by simp, hmp, rfl, rfl⟩⟩
        · simp only [nbWalk, if_neg hmp, Prod.mk.injEq] at h
          obtain ⟨⟨rfl, rfl⟩, rfl⟩ := h
          have hpos : 0 < len := by
            have := hP (s, BlockRangeState.downloading len active) (by simp)
            simpa [posLenB] using this
          refine ⟨by simp,
            Or.inr ⟨(s, BlockRangeState.downloading len active), by simp, Nat.le_add_right s len⟩,
            Or.inr ⟨rfl, Nat.le_refl _, ?_⟩⟩
          intro len2 dl2 hmem
          simp only [Option.toList_some, List.append_nil, List.mem_singleton,
            Prod.mk.injEq] at hmem
          omega
      | complete bs =>
        simp only [nbWalk, Prod.mk.injEq] at h
        obtain ⟨⟨rfl, rfl⟩, rfl⟩ := h
        refine ⟨by simp,
          Or.inr ⟨(s, BlockRangeState.complete bs), by simp, Nat.le_add_right _ _⟩,
          Or.inr ⟨rfl, Nat.le_refl _, ?_⟩⟩
        intro len2 dl2 hmem
        simp only [Option.toList_some, List.append_nil, List.mem_singleton,
          Prod.mk.injEq] at hmem
        exact absurd hmem.2 (by simp)
  | cons x t ih =>
    intro prev a b d hS hP h
    obtain ⟨ns, nr⟩ := x
    cases prev with
    | none =>
      by_cases hgt : ns > f
      · simp only [nbWalk, if_pos hgt, Prod.mk.injEq] at h
        obtain ⟨⟨rfl, rfl⟩, rfl⟩ := h
        refine ⟨by simp, Or.inl rfl, Or.inr ⟨rfl, Nat.min_le_left _ _, ?_⟩⟩
        intro len2 dl2 hmem
        simp only [Option.toList_none, List.nil_append] at hmem hS
        rcases List.mem_cons.mp hmem with h2 | h2
        · have : f = ns := congrArg Prod.fst h2
          omega
        · rw [List.pairwise_cons] at hS
          have := hS.1 _ h2
          simp at this
          omega
      · simp only [nbWalk, if_neg hgt] at h
        simp only [Option.toList_none, List.nil_append] at hS hP
        have := ih (some (ns, nr)) a b d (by simpa using hS) (by simpa using hP) h
        refine ⟨by simp, ?_, ?_⟩
        · simpa using this.2.1
        · simpa using this.2.2
    | some e =>
      obtain ⟨s, r⟩ := e
      simp only [Option.toList_some, List.cons_append, List.singleton_append] at hS hP ⊢
      rw [List.pairwise_cons] at hS
      have hsn : s < ns := by simpa using hS.1 (ns, nr) (by simp)
      have hTail : ((ns, nr) :: t).Pairwise (fun x y => x.1 < y.1) := hS.2
      have hPTail : ∀ e2 ∈ (ns, nr) :: t, posLenB e2 = true := fun e2 he2 =>
        hP e2 (List.mem_cons.mpr (Or.inr he2))
      cases r with
      | downloading len active =>
        by_cases hmp : active < mp
        · simp only [nbWalk, if_pos hmp, Prod.mk.injEq] at h
          obtain ⟨⟨rfl, rfl⟩, rfl⟩ := h
          exact ⟨by simp,
            Or.inr ⟨(s, BlockRangeState.downloading len active), by simp, Nat.le_refl _⟩,
            Or.inl ⟨len, active, by simp, hmp, rfl, rfl⟩⟩
        · have hpos : 0 < len := by
            have := hP (s, BlockRangeState.downloading len active) (by simp)
            simpa [posLenB] using this
          by_cases hlt : s + len < ns
          · simp only [nbWalk, if_neg hmp, if_pos hlt, Prod.mk.injEq] at h
            obtain ⟨⟨rfl, rfl⟩, rfl⟩ := h
            refine ⟨by simp,
              Or.inr ⟨(s, BlockRangeState.downloading len active), by simp, Nat.le_add_right _ _⟩,
              Or.inr ⟨rfl, Nat.min_le_right _ _, ?_⟩⟩
            intro len2 dl2 hmem
            rcases List.mem_cons.mp hmem with h2 | h2
            · have : s + len = s := congrArg Prod.fst h2
              omega
            · rcases List.mem_cons.mp h2 with h3 | h3
              · have : s + len = ns := congrArg Prod.fst h3
                omega
              · rw [List.pairwise_cons] at hTail
                have := hTail.1 _ h3
                simp at this
                omega
          · simp only [nbWalk, if_neg hmp, if_neg hlt] at h
            have ihr := ih (some (ns, nr)) a b d (by simpa using hTail) (by simpa using hPTail) h
            have hns_a : ns ≤ a := by simpa using ihr.1
            refine ⟨by simp; omega, ?_, ?_⟩
            · rcases ihr.2.1 with h2 | ⟨e2, he2, hle⟩
              · exact Or.inl h2
              · exact Or.inr ⟨e2, List.mem_cons.mpr (Or.inr (by simpa using he2)), hle⟩
            · rcases ihr.2.2 with ⟨len2, dl2, hmem, hrest⟩ | ⟨hd0, hbc, hnm⟩
              · exact Or.inl ⟨len2, dl2, List.mem_cons.mpr (Or.inr (by simpa using hmem)), hrest⟩
              · refine Or.inr ⟨hd0, hbc, ?_⟩
                intro len2 dl2 hmem
                rcases List.mem_cons.mp hmem with h2 | h2
                · have : a = s := congrArg Prod.fst h2
                  omega
                · exact hnm len2 dl2 (by simpa using h2)
      | complete bs =>
        by_cases hlt : s + bs.length % 4294967296 < ns
        · simp only [nbWalk, if_pos hlt, Prod.mk.injEq] at h
          obtain ⟨⟨rfl, rfl⟩, rfl⟩ := h
          refine ⟨by simp,
            Or.inr ⟨(s, BlockRangeState.complete bs), by simp, Nat.le_add_right _ _⟩,
            Or.inr ⟨rfl, Nat.min_le_right _ _, ?_⟩⟩
          intro len2 dl2 hmem
          rcases List.mem_cons.mp hmem with h2 | h2
          · exact absurd (congrArg Prod.snd h2) (by simp)
          · rcases List.mem_cons.mp h2 with h3 | h3
            · have : s + bs.length % 4294967296 = ns := congrArg Prod.fst h3
              omega
            · rw [List.pairwise_cons] at hTail
              have := hTail.1 _ h3
              simp at this
              omega
        · simp only [nbWalk, if_neg hlt] at h
          have ihr := ih (some (ns, nr)) a b d (by simpa using hTail) (by simpa using hPTail) h
          have hns_a : ns ≤ a := by simpa using ihr.1
          refine ⟨by simp; omega, ?_, ?_⟩
          · rcases ihr.2.1 with h2 | ⟨e2, he2, hle⟩
            · exact Or.inl h2
            · exact Or.inr ⟨e2, List.mem_cons.mpr (Or.inr (by simpa using he2)), hle⟩
          · rcases ihr.2.2 with ⟨len2, dl2, hmem, hrest⟩ | ⟨hd0, hbc, hnm⟩
            · exact Or.inl ⟨len2, dl2, List.mem_cons.mpr (Or.inr (by simpa using hmem)), hrest⟩
            · refine Or.inr ⟨hd0, hbc, ?_⟩
              intro len2 dl2 hmem
              rcases List.mem_cons.mp hmem with h2 | h2
              · have : a = s := congrArg Prod.fst h2
                omega
              · exact hnm len2 dl2 (by simpa using h2)

theorem nbWalk_start_lb (f c mp : Nat) (rest : List (Nat × BlockRangeState β)) :
    ∀ (prev : Option (Nat × BlockRangeState β)) (a b d : Nat),
      nbWalk f c mp prev rest = ((a, b), d) →
      a = f ∨ ∃ e ∈ prev.toList ++ rest, e.1 ≤ a := by
  induction rest with
  | nil =>
    intro prev a b d h
    cases prev with
    | none =>
      simp only [nbWalk, Prod.mk.injEq] at h
      exact Or.inl h.1.1.symm
    | some e =>
      obtain ⟨s, r⟩ := e
      cases r with
      | downloading len active =>
        by_cases hmp : active < mp
        · simp only [nbWalk, if_pos hmp, Prod.mk.injEq] at h
          exact Or.inr ⟨(s, BlockRangeState.downloading len active), by simp, by omega⟩
        · simp only [nbWalk, if_neg hmp, Prod.mk.injEq] at h
          exact Or.inr ⟨(s, BlockRangeState.downloading len active), by simp, by omega⟩
      | complete bs =>
        simp only [nbWalk, Prod.mk.injEq] at h
        exact Or.inr ⟨(s, BlockRangeState.complete bs), by simp, by omega⟩
  | cons x t ih =>
    intro prev a b d h
    obtain ⟨ns, nr⟩ := x
    cases prev with
    | none =>
      by_cases hgt : ns > f
      · simp only [nbWalk, if_pos hgt, Prod.mk.injEq] at h
        exact Or.inl h.1.1.symm
      · simp only [nbWalk, if_neg hgt] at h
        rcases ih (some (ns, nr)) a b d h with h2 | ⟨e, he, hle⟩
        · exact Or.inl h2
        · exact Or.inr ⟨e, by simpa using he, hle⟩
    | some e =>
      obtain ⟨s, r⟩ := e
      cases r with
      | downloading len active =>
        by_cases hmp : active < mp
        · simp only [nbWalk, if_pos hmp, Prod.mk.injEq] at h
          exact Or.inr ⟨(s, BlockRangeState.downloading len active), by simp, by omega⟩
        · by_cases hlt : s + len < ns
          · simp only [nbWalk, if_neg hmp, if_pos hlt, Prod.mk.injEq] at h
            exact Or.inr ⟨(s, BlockRangeState.downloading len active), by simp, by omega⟩
          · simp only [nbWalk, if_neg hmp, if_neg hlt] at h
            rcases ih (some (ns, nr)) a b d h with h2 | ⟨e, he, hle⟩
            · exact Or.inl h2
            · refine Or.inr ⟨e, ?_, hle⟩
              simp only [Option.toList_some, List.singleton_append] at he ⊢
              exact List.mem_cons.mpr (Or.inr he)
      | complete bs =>
        by_cases hlt : s + bs.length % 4294967296 < ns
        · simp only [nbWalk, if_pos hlt, Prod.mk.injEq] at h
          exact Or.inr ⟨(s, BlockRangeState.complete bs), by simp, by omega⟩
        · simp only [nbWalk, if_neg hlt] at h
          rcases ih (some (ns, nr)) a b d h with h2 | ⟨e, he, hle⟩
          · exact Or.inl h2
          · refine Or.inr ⟨e, ?_, hle⟩
            simp only [Option.toList_some, List.singleton_append] at he ⊢
            exact List.mem_cons.mpr (Or.inr he)

/-- C1 (amended): a range returned by `needed_blocks` never extends past
`peer_best + 1`; its start exceeds `common` whenever every range start present
in the collection exceeds `common` — in particular on an empty collection —
but not for arbitrary states (the walk may extend or join a range that begins
at or below `common`; see the counterexample). -/
theorem c1_range_bounds (st : BlockCollection β)
    (who count peer_best common maxParallel : Nat) (r : Nat × Nat) (st2 : BlockCollection β)
    (h : needed_blocks st who count peer_best common maxParallel = NBResult.someResult r st2) :
    r.2 ≤ peer_best + 1 ∧ ((∀ e ∈ st.blocks, common < e.1) → common < r.1) := by
  rcases hwd : nbWalk (common + 1) (count % 4294967296) maxParallel
      (none (α := Nat × BlockRangeState β)) st.blocks with ⟨⟨a, b⟩, d⟩
  unfold needed_blocks at h
  dsimp only at h
  rw [hwd] at h
  dsimp only at h
  split at h
  · cases h
  · split at h
    · cases h
    · cases h
      refine ⟨Nat.min_le_left _ _, ?_⟩
      intro hall
      rcases nbWalk_start_lb (common + 1) (count % 4294967296) maxParallel st.blocks
          none a b d hwd with h2 | ⟨e, he, hle⟩
      · omega
      · have := hall e (by simpa using he)
        omega

/-- C1 counterexample: on a collection holding `Downloading{len 10, active 1}`
at start key `5`, the call `needed_blocks(who 0, count 10, peer_best 100,
common 10, max_parallel 2)` joins that in-flight range and returns `5..15`,
whose start `5` is not strictly greater than `common = 10`. -/
theorem c1_counterexample :
    (needed_blocks (⟨[(5, BlockRangeState.downloading 10 1)], [(7, 5)]⟩ : BlockCollection Unit)
        0 10 100 10 2).range? = some (5, 15) ∧ ¬ (10 < 5) := by
  exact ⟨rfl, by omega⟩

/-- C9 (amended): with `count = 0`, `needed_blocks` returns a non-empty range
only by joining an existing `Downloading` range with spare parallelism (whose
extent it returns, clamped); whenever the walk selects a fresh range — in
particular on an empty collection — it returns `None` or panics, and on an
empty collection with `peer_best ≥ common + 1` it always panics. -/
theorem c9_count_zero (st : BlockCollection β) (who peer_best common maxParallel : Nat)
    (hS : SortedKeys st.blocks) (hP : ∀ e ∈ st.blocks, posLenB e = true) :
    (∀ r st2, needed_blocks st who 0 peer_best common maxParallel = NBResult.someResult r st2 →
      ∃ len dl, (r.1, BlockRangeState.downloading len dl) ∈ st.blocks ∧
        dl < maxParallel ∧ r.2 = min (peer_best + 1) (r.1 + len)) ∧
    (st.blocks = [] → common + 1 ≤ peer_best →
      needed_blocks st who 0 peer_best common maxParallel = NBResult.panicked) := by
  constructor
  · intro r st2 h
    rcases hwd : nbWalk (common + 1) (0 % 4294967296) maxParallel
        (none (α := Nat × BlockRangeState β)) st.blocks with ⟨⟨a, b⟩, d⟩
    unfold needed_blocks at h
    dsimp only at h
    rw [hwd] at h
    dsimp only at h
    split at h
    · cases h
    · split at h
      · cases h
      · cases h
        rename_i hout hempty
        have hspec := nbWalk_spec (common + 1) (0 % 4294967296) maxParallel st.blocks
            none a b d (by simpa using hS) (by simpa using hP) hwd
        rcases hspec.2.2 with ⟨len, dl, hmem, hdl, _hd, hb⟩ | ⟨_, hba, _⟩
        · exact ⟨len, dl, by simpa using hmem, hdl, by dsimp only; rw [hb]⟩
        · exfalso
          have hmr := Nat.min_le_right (peer_best + 1) b
          simp only [Nat.zero_mod, Nat.add_zero] at hba
          omega
  · intro h1 h2
    unfold needed_blocks
    rw [h1]
    simp only [nbWalk]
    rw [if_neg (by omega)]
    rw [if_pos (by simpa using Nat.min_le_right (peer_best + 1) (common + 1))]

/-- C9 counterexample: on a collection holding `Downloading{len 5, active 1}`
at start key `1`, the call `needed_blocks(who 0, count 0, peer_best 10,
common 0, max_parallel 2)` returns the non-empty range `1..6` even though
`count = 0`. -/
theorem c9_counterexample :
    (needed_blocks (⟨[(1, BlockRangeState.downloading 5 1)], [(3, 1)]⟩ : BlockCollection Unit)
        0 0 10 0 2).range? = some (1, 6) ∧ 1 < 6 := by
  exact ⟨rfl, by omega⟩

/-! ## Invariant preservation -/

theorem isDownB_iff (o : Option (BlockRangeState β)) :
    isDownB o = true ↔ ∃ len dl, o = some (BlockRangeState.downloading len dl) := by
  cases o with
  | none => simp [isDownB]
  | some rs => cases rs <;> simp [isDownB]

theorem drainSpec_sublist (l : List (Nat × BlockRangeState β)) :
    ∀ prev, ((drainSpec prev l).2).Sublist l := by
  induction l with
  | nil => intro prev; simp [drainSpec]
  | cons e t ih =>
    intro prev
    obtain ⟨s, r⟩ := e
    cases r with
    | downloading len act =>
      simp only [drainSpec]
      exact List.Sublist.refl _
    | complete bs =>
      by_cases h : s ≤ prev
      · simp only [drainSpec, if_pos h]
        exact List.Sublist.cons _ (ih _)
      · simp only [drainSpec, if_neg h]
        exact List.Sublist.refl _

theorem drainSpec_keeps (l : List (Nat × BlockRangeState β)) :
    ∀ prev k len dl, alookup l k = some (BlockRangeState.downloading len dl) →
      alookup (drainSpec prev l).2 k = some (BlockRangeState.downloading len dl) := by
  induction l with
  | nil => intro prev k len dl h; simpa [alookup] using h
  | cons e t ih =>
    intro prev k len dl h
    obtain ⟨s, r⟩ := e
    cases r with
    | downloading len2 act =>
      simpa only [drainSpec] using h
    | complete bs =>
      by_cases hsp : s ≤ prev
      · simp only [drainSpec, if_pos hsp]
        by_cases hk : k = s
        · subst hk
          simp [alookup] at h
        · simp only [alookup, if_neg hk] at h
          exact ih _ k len dl h
      · simpa only [drainSpec, if_neg hsp] using h

theorem good_clear (st : BlockCollection β) : Good (clear st) := by
  refine ⟨List.Pairwise.nil, List.nodup_nil, by simp [clear], by simp [clear, Inv], ?_⟩
  simp [clear, Inv]

theorem good_drain (st : BlockCollection β) (from_ : Nat) (hg : Good st) :
    Good (drain st from_).2 := by
  obtain ⟨hS, hND, hPL, hI1, hI2⟩ := hg
  have hblocks : (drain st from_).2 =
      ⟨(drainSpec from_ st.blocks).2, st.peer_requests⟩ := by
    have hd := drainLoop_spec st.blocks from_
    unfold drain
    dsimp only
    rw [BlockCollection.mk.injEq]
    exact ⟨hd.2, rfl⟩
  rw [hblocks]
  have hsub := drainSpec_sublist st.blocks from_
  refine ⟨(hS.sublist hsub), hND, ?_, ?_, ?_⟩
  · intro e he
    exact hPL e (hsub.subset he)
  · intro e he
    have h1 := hI1 e he
    rw [isDownB_iff] at h1
    obtain ⟨len, dl, h2⟩ := h1
    rw [isDownB_iff]
    exact ⟨len, dl, drainSpec_keeps st.blocks from_ e.2 len dl h2⟩
  · intro e he
    exact hI2 e (hsub.subset he)

theorem good_insert (st : BlockCollection β) (start : Nat) (bs : List β) (who : Nat)
    (hg : Good st) (hc : countPR st.peer_requests start = 0) :
    Good (insert st start bs who) := by
  obtain ⟨hS, hND, hPL, hI1, hI2⟩ := hg
  unfold insert
  split
  · exact ⟨hS, hND, hPL, hI1, hI2⟩
  · dsimp only
    split
    · exact ⟨hS, hND, hPL, hI1, hI2⟩
    · refine ⟨mapInsert_pairwise st.blocks start _ hS, hND, ?_, ?_, ?_⟩
      · intro e he
        rcases mem_mapInsert_sorted st.blocks start _ e hS he with h2 | ⟨h2, _⟩
        · subst h2; rfl
        · exact hPL e h2
      · intro e he
        have hne : e.2 ≠ start := by
          intro h2
          have := countPR_pos_of_mem st.peer_requests e start he h2
          omega
        rw [alookup_mapInsert_ne st.blocks start e.2 _ hne]
        exact hI1 e he
      · intro e he
        rcases mem_mapInsert_sorted st.blocks start _ e hS he with h2 | ⟨h2, _⟩
        · subst h2; rfl
        · exact hI2 e h2

theorem good_cpd (st : BlockCollection β) (who : Nat) (hg : Good st) :
    Good (clear_peer_download st who) := by
  obtain ⟨hS, hND, hPL, hI1, hI2⟩ := hg
  unfold clear_peer_download
  cases hlw : alookup st.peer_requests who with
  | none => exact ⟨hS, hND, hPL, hI1, hI2⟩
  | some start =>
    dsimp only
    have hNDpr := aremove_nodup st.peer_requests who hND
    have hmemwho : (who, start) ∈ st.peer_requests := alookup_mem _ _ _ hlw
    have hIw : isDownB (alookup st.blocks start) = true := hI1 (who, start) hmemwho
    cases hlb : alookup st.blocks start with
    | none => rw [hlb] at hIw; simp [isDownB] at hIw
    | some rs =>
      cases rs with
      | complete bs => rw [hlb] at hIw; simp [isDownB] at hIw
      | downloading len act =>
        dsimp only
        have hmemb : (start, BlockRangeState.downloading len act) ∈ st.blocks :=
          alookup_mem _ _ _ hlb
        have hcnt : act = countPR st.peer_requests start := by
          have := hI2 _ hmemb
          simpa [entryOkB] using this
        have hrem := countPR_aremove st.peer_requests who start hND hlw
        by_cases hact : act > 1
        · rw [if_pos hact]
          refine ⟨mapInsert_pairwise _ _ _ hS, hNDpr, ?_, ?_, ?_⟩
          · intro e he
            rcases mem_mapInsert_sorted _ _ _ e hS he with h2 | ⟨h2, _⟩
            · subst h2
              have := hPL _ hmemb
              simpa [posLenB] using this
            · exact hPL e h2
          · intro e he
            have hepr : e ∈ st.peer_requests := mem_aremove _ _ e he
            by_cases hes : e.2 = start
            · rw [hes, alookup_mapInsert_self]
              rfl
            · rw [alookup_mapInsert_ne _ _ _ _ hes]
              exact hI1 e hepr
          · intro e he
            rcases mem_mapInsert_sorted _ _ _ e hS he with h2 | ⟨h2, hne⟩
            · subst h2
              have h3 := hrem start
              rw [if_pos rfl] at h3
              simp only [entryOkB, h3]
              simp
              omega
            · obtain ⟨k, rs2⟩ := e
              cases rs2 with
              | complete bs2 => rfl
              | downloading len2 act2 =>
                have h3 := hI2 _ h2
                have h4 := hrem k
                rw [if_neg (fun hh => hne hh.symm)] at h4
                simp only [entryOkB] at h3 ⊢
                simp only [Nat.beq_eq_true_eq] at h3 ⊢
                omega
        · rw [if_neg hact]
          have hc1 : 0 < countPR st.peer_requests start :=
            countPR_pos_of_mem _ _ _ hmemwho rfl
          have hNDb : (st.blocks.map Prod.fst).Nodup := keys_nodup_of_pairwise _ hS
          refine ⟨hS.sublist (aremove_sublist start st.blocks), hNDpr, ?_, ?_, ?_⟩
          · intro e he
            exact hPL e (mem_aremove _ _ e he)
          · intro e he
            have hepr : e ∈ st.peer_requests := mem_aremove _ _ e he
            have henw : e.1 ≠ who := mem_aremove_ne st.peer_requests who hND e he
            have hes : e.2 ≠ start := by
              intro h2
              have h2c := two_le_countPR st.peer_requests (who, start) e start hmemwho hepr
                (fun hh => henw (congrArg Prod.fst hh).symm) rfl h2
              omega
            rw [alookup_aremove_ne st.blocks start e.2 hes]
            exact hI1 e hepr
          · intro e he
            have heb : e ∈ st.blocks := mem_aremove _ _ e he
            have hek : e.1 ≠ start := mem_aremove_ne st.blocks start hNDb e he
            obtain ⟨k, rs2⟩ := e
            cases rs2 with
            | complete bs2 => rfl
            | downloading len2 act2 =>
              have h3 := hI2 _ heb
              have h4 := hrem k
              rw [if_neg (fun hh => hek hh.symm)] at h4
              simp only [entryOkB] at h3 ⊢
              simp only [Nat.beq_eq_true_eq] at h3 ⊢
              omega

theorem good_needed (st : BlockCollection β) (who count pb cm mp : Nat)
    (r : Nat × Nat) (st2 : BlockCollection β) (hg : Good st)
    (hwho : alookup st.peer_requests who = none)
    (h : needed_blocks st who count pb cm mp = NBResult.someResult r st2) : Good st2 := by
  obtain ⟨hS, hND, hPL, hI1, hI2⟩ := hg
  rcases hwd : nbWalk (cm + 1) (count % 4294967296) mp
      (none (α := Nat × BlockRangeState β)) st.blocks with ⟨⟨a, b⟩, d⟩
  unfold needed_blocks at h
  dsimp only at h
  rw [hwd] at h
  dsimp only at h
  split at h
  · cases h
  · split at h
    · cases h
    · cases h
      rename_i hout hne
      have hra : a < min (pb + 1) b := by omega
      have hPR : ainsert who a st.peer_requests = st.peer_requests ++ [(who, a)] :=
        ainsert_of_alookup_none _ _ _ hwho
      have hwnotin : who ∉ st.peer_requests.map Prod.fst := (alookup_eq_none _ _).mp hwho
      have hwalk := nbWalk_spec (cm + 1) (count % 4294967296) mp st.blocks none a b d
        (by simpa using hS) (by simpa using hPL) hwd
      have hcnta : countPR st.peer_requests a = d := by
        rcases hwalk.2.2 with ⟨len, dl, hmem, hdl, hd, hb2⟩ | ⟨hd0, _, hnm⟩
        · subst hd
          have := hI2 (a, BlockRangeState.downloading len d) (by simpa using hmem)
          simp only [entryOkB, Nat.beq_eq_true_eq] at this
          omega
        · subst hd0
          by_contra hcc
          have hpos : 0 < countPR st.peer_requests a := Nat.pos_of_ne_zero hcc
          obtain ⟨e2, he2, hv2⟩ := countPR_pos_mem _ _ hpos
          have h5 : isDownB (alookup st.blocks a) = true := hv2 ▸ hI1 e2 he2
          rw [isDownB_iff] at h5
          obtain ⟨len2, dl2, h6⟩ := h5
          exact hnm len2 dl2 (by simpa using alookup_mem _ _ _ h6)
      have hNDpr2 : ((ainsert who a st.peer_requests).map Prod.fst).Nodup := by
        rw [hPR, List.map_append]
        refine List.Nodup.append hND (by simp) ?_
        intro x hx hx2
        simp only [List.map_cons, List.map_nil, List.mem_singleton] at hx2
        subst hx2
        exact hwnotin hx
      refine ⟨mapInsert_pairwise _ _ _ hS, hNDpr2, ?_, ?_, ?_⟩
      · intro e he
        rcases mem_mapInsert_sorted _ _ _ e hS he with h2 | ⟨h2, _⟩
        · subst h2
          simp only [posLenB, decide_eq_true_eq]
          omega
        · exact hPL e h2
      · intro e he
        rw [hPR] at he
        rcases List.mem_append.mp he with h2 | h2
        · by_cases hes : e.2 = a
          · rw [hes, alookup_mapInsert_self]; rfl
          · rw [alookup_mapInsert_ne _ _ _ _ hes]
            exact hI1 e h2
        · have h3 : e = (who, a) := by simpa using h2
          subst h3
          show isDownB (alookup (mapInsert a _ st.blocks) a) = true
          rw [alookup_mapInsert_self]
          rfl
      · intro e he
        rcases mem_mapInsert_sorted _ _ _ e hS he with h2 | ⟨h2, hkne⟩
        · subst h2
          simp only [entryOkB, Nat.beq_eq_true_eq]
          rw [hPR, countPR_append_one, if_pos rfl, hcnta]
        · obtain ⟨k, rs2⟩ := e
          cases rs2 with
          | complete bs2 => rfl
          | downloading len2 act2 =>
            have h3 := hI2 _ h2
            simp only [entryOkB, Nat.beq_eq_true_eq] at h3 ⊢
            rw [hPR, countPR_append_one, if_neg (fun hh => hkne hh.symm)]
            omega

theorem good_applyOp (st : BlockCollection β) (op : Op β) (st2 : BlockCollection β)
    (hg : Good st) (hv : validOpB st op = true) (h : applyOp st op = some st2) : Good st2 := by
  cases op with
  | needed who c pb cm mp =>
    simp only [applyOp] at h
    cases hn : needed_blocks st who c pb cm mp with
    | panicked => rw [hn] at h; cases h
    | noneResult =>
      rw [hn] at h
      simp only [NBResult.state?, Option.some.injEq] at h
      subst h
      exact hg
    | someResult r s2 =>
      rw [hn] at h
      simp only [NBResult.state?, Option.some.injEq] at h
      subst h
      refine good_needed st who c pb cm mp r s2 hg ?_ hn
      simpa [validOpB, Option.isNone_iff_eq_none] using hv
  | ins s bs w =>
    simp only [applyOp, Option.some.injEq] at h
    subst h
    refine good_insert st s bs w hg ?_
    simpa [validOpB] using hv
  | drainOp f =>
    simp only [applyOp, Option.some.injEq] at h
    subst h
    exact good_drain st f hg
  | clearPeer w =>
    simp only [applyOp, Option.some.injEq] at h
    subst h
    exact good_cpd st w hg
  | clearAll =>
    simp only [applyOp, Option.some.injEq] at h
    subst h
    exact good_clear st

theorem good_runOps (ops : List (Op β)) : ∀ st st2 : BlockCollection β,
    Good st → goodRunB st ops = true → runOps st ops = some st2 → Good st2 := by
  induction ops with
  | nil =>
    intro st st2 hg _ h
    simp only [runOps, Option.some.injEq] at h
    subst h
    exact hg
  | cons op t ih =>
    intro st st2 hg hgr h
    simp only [goodRunB, Bool.and_eq_true] at hgr
    simp only [runOps] at h
    cases ha : applyOp st op with
    | none => rw [ha] at h; cases h
    | some stm =>
      rw [ha] at h
      have hgm : Good stm := good_applyOp st op stm hg hgr.1 ha
      have hgr2 : goodRunB stm t = true := by
        have h2 := hgr.2
        rw [ha] at h2
        exact h2
      exact ih stm st2 hgm hgr2 h

/-- C2 (amended): starting from the empty collection, after every sequence of
operations in which each `needed_blocks` call is made for a peer with no
outstanding entry in `peer_requests` and each `insert` targets a start height
not reserved by any peer (and no call panics), the invariant holds: every
value stored in `peer_requests` is the start key of a `Downloading` range in
`blocks`, and for each start key the number of `peer_requests` entries mapping
to it equals the `downloading` field of that range.  Unrestricted sequences
violate the invariant (see the counterexample). -/
theorem c2_invariant_preserved (ops : List (Op β)) (st2 : BlockCollection β)
    (hgr : goodRunB (BlockCollection.new (β := β)) ops = true)
    (h : runOps (BlockCollection.new (β := β)) ops = some st2) : Inv st2 := by
  have hg : Good (BlockCollection.new (β := β)) := by
    refine ⟨List.Pairwise.nil, List.nodup_nil, by simp [BlockCollection.new], ?_, ?_⟩
    · intro e he
      simp [BlockCollection.new] at he
    · intro e he
      simp [BlockCollection.new] at he
  exact (good_runOps ops _ st2 hg hgr h).2.2.2

/-- C2 counterexample: from the empty collection, `needed_blocks(0, 1, 10, 0, 1)`
reserves range `1..2` for peer `0`, and a subsequent `insert(1, [block], 1)`
overwrites the `Downloading` entry with `Complete` while peer `0`'s
reservation still points at start key `1`, violating the invariant. -/
theorem c2_counterexample :
    runOps (BlockCollection.new (β := Unit)) [Op.needed 0 1 10 0 1, Op.ins 1 [()] 1] =
      some ⟨[(1, BlockRangeState.complete [⟨(), some 1⟩])], [(0, 1)]⟩ ∧
    ¬ Inv (⟨[(1, BlockRangeState.complete [⟨(), some 1⟩])], [(0, 1)]⟩ : BlockCollection Unit) := by
  constructor
  · rfl
  · intro hI
    have h2 := hI.1 (0, 1) (by simp)
    simp [alookup, isDownB] at h2

end Sync

namespace Wasm

variable {I : Type u} {V : Type v}

/-- C6: a second `fetch_runtime` with the same method, the same `:code` hash
and the same effective `:heappages` value returns the same runtime instance
and the same version, leaves the cache unchanged, and is independent of the
engine's `create_instance` (any engine agreeing on `update_heap_pages` gives
the identical result, so `create_instance` is not invoked).  The
`update_heap_pages` contract — it returns `true` (applying no change) when the
heap-page count is unchanged — is taken as a hypothesis. -/
theorem c6_fetch_idempotent (eng eng2 : EngineModel I V) (cache cache2 : RuntimesCache I V)
    (ext ext2 : Externalities) (m : WasmExecutionMethod) (d d2 : Nat)
    (rt : I) (v : V) (hsh : Nat)
    (h1 : fetch_runtime eng cache ext m d = (Except.ok (rt, v, hsh), cache2))
    (hupd : eng2.update_heap_pages = eng.update_heap_pages)
    (hhash : ext2.original_storage_hash CODE = ext.original_storage_hash CODE)
    (hhp : heapPagesFor ext2 d2 = heapPagesFor ext d)
    (hcontract : ∀ i : I, eng.update_heap_pages i (heapPagesFor ext d) = (true, i)) :
    fetch_runtime eng2 cache2 ext2 m d2 = (Except.ok (rt, v, hsh), cache2) := by
  unfold fetch_runtime at h1
  cases hh : ext.original_storage_hash CODE with
  | none =>
    rw [hh] at h1
    cases h1
  | some ch =>
    rw [hh] at h1
    dsimp only at h1
    cases hne : (match alookup cache.instances (m, ch) with
      | some (Except.ok cached) =>
        let u := eng.update_heap_pages cached.runtime (heapPagesFor ext d)
        if u.1 then Except.ok { cached with runtime := u.2 }
        else create_versioned_wasm_runtime eng ext m (heapPagesFor ext d)
      | some (Except.error e) => Except.error e
      | none => create_versioned_wasm_runtime eng ext m (heapPagesFor ext d)) with
    | error e =>
      rw [hne] at h1
      cases h1
    | ok vr =>
      rw [hne] at h1
      simp only [Prod.mk.injEq, Except.ok.injEq] at h1
      obtain ⟨⟨hrt, hv, hch⟩, hc2⟩ := h1
      subst hch
      subst hc2
      have hlook : alookup (ainsert (m, ch) (Except.ok vr) cache.instances) (m, ch) =
          some (Except.ok vr) := alookup_ainsert_self cache.instances (m, ch) _
      unfold fetch_runtime
      rw [hhash, hh]
      dsimp only
      rw [hhp, hlook]
      dsimp only
      rw [hupd, hcontract vr.runtime]
      have hvr : ({ runtime := vr.runtime, version := vr.version } : VersionedRuntime I V) =
          vr := rfl
      have hkeep := ainsert_of_alookup_some _ (m, ch) _ hlook
      simp only [if_true, hvr, hkeep, hrt, hv]
      rw [show ({ runtime := rt, version := v } : VersionedRuntime I V) = vr from by
        rw [← hrt, ← hv]]
      rw [hkeep]

/-- C7: during runtime construction, a native unwind out of the `Core_version`
call yields `Instantiation("panic in call to get runtime version")` and a
version-decode failure yields the instantiation error whose message is the
code's literal `failed to decode "Core_version" result`; a failed build is
stored in the cache by `fetch_runtime`, and every subsequent `fetch_runtime`
for the same key (with any engine — so without rebuilding) re-surfaces the
cached error mapped to `InvalidCode`, leaving the cache unchanged. -/
theorem c7_version_probe_errors (eng : EngineModel I V) :
    (∀ (ext : Externalities) (m : WasmExecutionMethod) (hp : Nat) (code : List Nat) (rt : I),
      ext.original_storage CODE = some code →
      eng.create_instance m code hp = Except.ok rt →
      ((eng.call rt ext ("Core_version") [] = CallOutcome.panicked →
        create_versioned_wasm_runtime eng ext m hp =
          Except.error (WasmError.Instantiation ("panic in call to get runtime version"))) ∧
       (∀ (bytes : List Nat) (rt2 : I),
        eng.call rt ext ("Core_version") [] = CallOutcome.ok bytes rt2 →
        eng.decodeVersion bytes = none →
        create_versioned_wasm_runtime eng ext m hp =
          Except.error (WasmError.Instantiation ("failed to decode \"Core_version\" result"))))) ∧
    (∀ (cache : RuntimesCache I V) (ext : Externalities) (m : WasmExecutionMethod)
      (d hsh : Nat) (e : WasmError),
      ext.original_storage_hash CODE = some hsh →
      alookup cache.instances (m, hsh) = none →
      create_versioned_wasm_runtime eng ext m (heapPagesFor ext d) = Except.error e →
      fetch_runtime eng cache ext m d =
        (Except.error (Error.InvalidCode (wasmErrorFormat e)),
          ⟨ainsert (m, hsh) (Except.error e) cache.instances⟩)) ∧
    (∀ (eng2 : EngineModel I V) (cache : RuntimesCache I V) (ext : Externalities)
      (m : WasmExecutionMethod) (d hsh : Nat) (e : WasmError),
      ext.original_storage_hash CODE = some hsh →
      alookup cache.instances (m, hsh) = some (Except.error e) →
      fetch_runtime eng2 cache ext m d =
        (Except.error (Error.InvalidCode (wasmErrorFormat e)), cache)) := by
  refine ⟨?_, ?_, ?_⟩
  · intro ext m hp code rt hcode hcreate
    constructor
    · intro hcall
      unfold create_versioned_wasm_runtime
      rw [hcode]
      dsimp only
      unfold create_wasm_runtime_with_code
      rw [hcreate]
      dsimp only
      rw [hcall]
    · intro bytes rt2 hcall hdec
      unfold create_versioned_wasm_runtime
      rw [hcode]
      dsimp only
      unfold create_wasm_runtime_with_code
      rw [hcreate]
      dsimp only
      rw [hcall]
      dsimp only
      rw [hdec]
  · intro cache ext m d hsh e hh hlook hcreate
    unfold fetch_runtime
    rw [hh]
    dsimp only
    rw [hlook]
    dsimp only
    rw [hcreate]
  · intro eng2 cache ext m d hsh e hh hlook
    unfold fetch_runtime
    rw [hh]
    dsimp only
    rw [hlook]
    dsimp only
    have hkeep : ainsert (m, hsh) (Except.error (α := VersionedRuntime I V) e) cache.instances =
        cache.instances :=
      ainsert_of_alookup_some cache.instances (m, hsh) _ hlook
    rw [hkeep]

/-- C8: on every `fetch_runtime` call the heap-page count used is the value of
the `:heappages` storage key decoded as a little-endian 8-byte unsigned
integer, falling back to `default_heap_pages` when the key is absent or the
value is shorter than 8 bytes; `fetch_runtime` passes exactly this value
(`heapPagesFor`) to the runtime construction. -/
theorem c8_heap_pages :
    (∀ (ext : Externalities) (d : Nat), ext.storage HEAP_PAGES = none →
      heapPagesFor ext d = d) ∧
    (∀ (ext : Externalities) (d : Nat) (bs : List Nat), ext.storage HEAP_PAGES = some bs →
      bs.length < 8 → heapPagesFor ext d = d) ∧
    (∀ (ext : Externalities) (d : Nat) (bs : List Nat), ext.storage HEAP_PAGES = some bs →
      8 ≤ bs.length → heapPagesFor ext d = leBytes (bs.take 8)) ∧
    (∀ (J : Type u) (W : Type v) (eng : EngineModel J W) (cache : RuntimesCache J W)
      (ext : Externalities) (m : WasmExecutionMethod) (d hsh : Nat),
      ext.original_storage_hash CODE = some hsh →
      alookup cache.instances (m, hsh) = none →
      (fetch_runtime eng cache ext m d).2.instances =
        ainsert (m, hsh)
          (create_versioned_wasm_runtime eng ext m (heapPagesFor ext d)) cache.instances) := by
  refine ⟨?_, ?_, ?_, ?_⟩
  · intro ext d h
    unfold heapPagesFor
    rw [h]
  · intro ext d bs h hlen
    unfold heapPagesFor
    rw [h]
    dsimp only
    unfold decodeU64
    rw [if_neg (by omega)]
  · intro ext d bs h hlen
    unfold heapPagesFor
    rw [h]
    dsimp only
    unfold decodeU64
    rw [if_pos hlen]
  · intro J W eng cache ext m d hsh hh hlook
    unfold fetch_runtime
    rw [hh]
    dsimp only
    rw [hlook]
    dsimp only
    cases hc : create_versioned_wasm_runtime eng ext m (heapPagesFor ext d) with
    | error e => rfl
    | ok vr => rfl

end Wasm

/-! ## Witnesses: the claim theorems applied at concrete inputs -/

namespace Sync

theorem c1_witness : (1, 6).2 ≤ 10 + 1 ∧
    ((∀ e ∈ (BlockCollection.new (β := Unit)).blocks, 0 < e.1) → 0 < (1, 6).1) :=
  c1_range_bounds (BlockCollection.new (β := Unit)) 0 5 10 0 1 (1, 6)
    ⟨[(1, BlockRangeState.downloading 5 1)], [(0, 1)]⟩ rfl

theorem c2_witness : Inv (⟨[], []⟩ : BlockCollection Unit) :=
  c2_invariant_preserved
    [Op.needed 0 1 10 0 1, Op.clearPeer 0, Op.ins 1 [()] 0, Op.drainOp 1]
    ⟨[], []⟩ (by decide) (by decide)

theorem c4_witness :
    insert (BlockCollection.new (β := Unit)) 3 ([] : List Unit) 0 = BlockCollection.new ∧
    clear_peer_download (BlockCollection.new (β := Unit)) 7 = BlockCollection.new ∧
    needed_blocks (BlockCollection.new (β := Unit)) 0 0 10 0 1 = NBResult.panicked := by
  refine ⟨(c4_error_model (β := Unit)).1 BlockCollection.new 3 0,
    (c4_error_model (β := Unit)).2.1 BlockCollection.new 7 rfl,
    ((c4_error_model (β := Unit)).2.2 BlockCollection.new 0 0 10 0 1).mpr ?_⟩
  exact ⟨by decide, by decide⟩

theorem c5_witness :
    (insert (⟨[(2, BlockRangeState.downloading 3 1)], [(5, 2)]⟩ : BlockCollection Unit)
        2 [()] 9).peer_requests = [(5, 2)] ∧
    alookup (insert (⟨[(2, BlockRangeState.downloading 3 1)], [(5, 2)]⟩ : BlockCollection Unit)
        2 [()] 9).blocks 2 = some (BlockRangeState.complete [⟨(), some 9⟩]) := by
  have h := (c5_insert_characterization
    (⟨[(2, BlockRangeState.downloading 3 1)], [(5, 2)]⟩ : BlockCollection Unit) 2 [()] 9).2.2
    (by simp) (by intro ex hex; simp [alookup] at hex)
  refine ⟨h.1, ?_⟩
  have h2 := h.2 2
  simpa using h2

theorem c9_witness :
    needed_blocks (BlockCollection.new (β := Unit)) 2 0 10 3 1 = NBResult.panicked := by
  have h := c9_count_zero (BlockCollection.new (β := Unit)) 2 10 3 1
    List.Pairwise.nil (by intro e he; simp [BlockCollection.new] at he)
  exact h.2 rfl (by omega)

theorem c10_witness :
    (insert (⟨[(1, BlockRangeState.downloading 2 1)], [(4, 1)]⟩ : BlockCollection Unit)
        9 [()] 3).peer_requests = [(4, 1)] ∧
    (drain (⟨[(1, BlockRangeState.downloading 2 1)], [(4, 1)]⟩ : BlockCollection Unit)
        0).2.peer_requests = [(4, 1)] ∧
    alookup ([(4, 1), (6, 1)] : List (Nat × Nat)) 4 = alookup ([(4, 1)] : List (Nat × Nat)) 4 ∧
    alookup (clear_peer_download
        (⟨[(1, BlockRangeState.downloading 2 1)], [(4, 1)]⟩ : BlockCollection Unit)
        4).peer_requests 9 = alookup ([(4, 1)] : List (Nat × Nat)) 9 ∧
    (clear (⟨[(1, BlockRangeState.downloading 2 1)], [(4, 1)]⟩ : BlockCollection Unit)).peer_requests = ([] : List (Nat × Nat)) := by
  have h := c10_peer_requests_frame
    (⟨[(1, BlockRangeState.downloading 2 1)], [(4, 1)]⟩ : BlockCollection Unit)
  refine ⟨h.1 9 [()] 3, h.2.1 0, ?_, h.2.2.2.1 4 9 (by omega), h.2.2.2.2⟩
  exact h.2.2.1 6 1 10 0 5 (1, 3)
    ⟨[(1, BlockRangeState.downloading 2 2)], [(4, 1), (6, 1)]⟩ rfl 4 (by omega)

end Sync

namespace Wasm

theorem c6_witness :
    fetch_runtime
      (⟨fun _ _ hp => Except.ok hp, fun i _ => (true, i),
        fun i _ _ _ => CallOutcome.ok [i] i, fun bs => some bs.length⟩ : EngineModel Nat Nat)
      (⟨[((WasmExecutionMethod.Interpreted, 42), Except.ok ⟨7, 1⟩)]⟩ : RuntimesCache Nat Nat)
      (⟨fun _ => some [1], fun _ => some 42, fun _ => none⟩ : Externalities)
      WasmExecutionMethod.Interpreted 7 =
    (Except.ok (7, 1, 42),
      (⟨[((WasmExecutionMethod.Interpreted, 42), Except.ok ⟨7, 1⟩)]⟩ : RuntimesCache Nat Nat)) :=
  c6_fetch_idempotent
    (⟨fun _ _ hp => Except.ok hp, fun i _ => (true, i),
      fun i _ _ _ => CallOutcome.ok [i] i, fun bs => some bs.length⟩ : EngineModel Nat Nat)
    (⟨fun _ _ hp => Except.ok hp, fun i _ => (true, i),
      fun i _ _ _ => CallOutcome.ok [i] i, fun bs => some bs.length⟩ : EngineModel Nat Nat)
    (⟨[]⟩ : RuntimesCache Nat Nat)
    (⟨[((WasmExecutionMethod.Interpreted, 42), Except.ok ⟨7, 1⟩)]⟩ : RuntimesCache Nat Nat)
    (⟨fun _ => some [1], fun _ => some 42, fun _ => none⟩ : Externalities)
    (⟨fun _ => some [1], fun _ => some 42, fun _ => none⟩ : Externalities)
    WasmExecutionMethod.Interpreted 7 7 7 1 42 rfl rfl rfl rfl (fun _ => rfl)

theorem c7_witness :
    create_versioned_wasm_runtime
      (⟨fun _ _ hp => Except.ok hp, fun i _ => (true, i), fun _ _ _ _ => CallOutcome.panicked,
        fun _ => none⟩ : EngineModel Nat Nat)
      (⟨fun _ => some [1], fun _ => some 42, fun _ => none⟩ : Externalities)
      WasmExecutionMethod.Interpreted 7 =
      Except.error (WasmError.Instantiation ("panic in call to get runtime version")) ∧
    create_versioned_wasm_runtime
      (⟨fun _ _ hp => Except.ok hp, fun i _ => (true, i),
        fun i _ _ _ => CallOutcome.ok [i] i, fun _ => none⟩ : EngineModel Nat Nat)
      (⟨fun _ => some [1], fun _ => some 42, fun _ => none⟩ : Externalities)
      WasmExecutionMethod.Interpreted 7 =
      Except.error (WasmError.Instantiation ("failed to decode \"Core_version\" result")) ∧
    fetch_runtime
      (⟨fun _ _ hp => Except.ok hp, fun i _ => (true, i), fun _ _ _ _ => CallOutcome.panicked,
        fun _ => none⟩ : EngineModel Nat Nat)
      (⟨[]⟩ : RuntimesCache Nat Nat)
      (⟨fun _ => some [1], fun _ => some 42, fun _ => none⟩ : Externalities)
      WasmExecutionMethod.Interpreted 7 =
      (Except.error (Error.InvalidCode (wasmErrorFormat
          (WasmError.Instantiation ("panic in call to get runtime version")))),
        ⟨ainsert (WasmExecutionMethod.Interpreted, 42)
          (Except.error (WasmError.Instantiation ("panic in call to get runtime version")))
          []⟩) ∧
    fetch_runtime
      (⟨fun _ _ hp => Except.ok hp, fun i _ => (true, i),
        fun i _ _ _ => CallOutcome.ok [i] i, fun bs => some bs.length⟩ : EngineModel Nat Nat)
      (⟨[((WasmExecutionMethod.Interpreted, 42),
          Except.error (WasmError.Instantiation ("panic in call to get runtime version")))]⟩ :
        RuntimesCache Nat Nat)
      (⟨fun _ => some [1], fun _ => some 42, fun _ => none⟩ : Externalities)
      WasmExecutionMethod.Interpreted 7 =
      (Except.error (Error.InvalidCode (wasmErrorFormat
          (WasmError.Instantiation ("panic in call to get runtime version")))),
        ⟨[((WasmExecutionMethod.Interpreted, 42),
          Except.error (WasmError.Instantiation ("panic in call to get runtime version")))]⟩) := by
  refine ⟨?_, ?_, ?_, ?_⟩
  · exact ((c7_version_probe_errors
      (⟨fun _ _ hp => Except.ok hp, fun i _ => (true, i), fun _ _ _ _ => CallOutcome.panicked,
        fun _ => none⟩ : EngineModel Nat Nat)).1
      (⟨fun _ => some [1], fun _ => some 42, fun _ => none⟩ : Externalities)
      WasmExecutionMethod.Interpreted 7 [1] 7 rfl rfl).1 rfl
  · exact ((c7_version_probe_errors
      (⟨fun _ _ hp => Except.ok hp, fun i _ => (true, i),
        fun i _ _ _ => CallOutcome.ok [i] i, fun _ => none⟩ : EngineModel Nat Nat)).1
      (⟨fun _ => some [1], fun _ => some 42, fun _ => none⟩ : Externalities)
      WasmExecutionMethod.Interpreted 7 [1] 7 rfl rfl).2 [7] 7 rfl rfl
  · exact (c7_version_probe_errors
      (⟨fun _ _ hp => Except.ok hp, fun i _ => (true, i), fun _ _ _ _ => CallOutcome.panicked,
        fun _ => none⟩ : EngineModel Nat Nat)).2.1
      (⟨[]⟩ : RuntimesCache Nat Nat)
      (⟨fun _ => some [1], fun _ => some 42, fun _ => none⟩ : Externalities)
      WasmExecutionMethod.Interpreted 7 42
      (WasmError.Instantiation ("panic in call to get runtime version")) rfl rfl rfl
  · exact (c7_version_probe_errors
      (⟨fun _ _ hp => Except.ok hp, fun i _ => (true, i), fun _ _ _ _ => CallOutcome.panicked,
        fun _ => none⟩ : EngineModel Nat Nat)).2.2
      (⟨fun _ _ hp => Except.ok hp, fun i _ => (true, i),
        fun i _ _ _ => CallOutcome.ok [i] i, fun bs => some bs.length⟩ : EngineModel Nat Nat)
      (⟨[((WasmExecutionMethod.Interpreted, 42),
          Except.error (WasmError.Instantiation ("panic in call to get runtime version")))]⟩ :
        RuntimesCache Nat Nat)
      (⟨fun _ => some [1], fun _ => some 42, fun _ => none⟩ : Externalities)
      WasmExecutionMethod.Interpreted 7 42
      (WasmError.Instantiation ("panic in call to get runtime version")) rfl rfl

theorem c8_witness :
    heapPagesFor (⟨fun _ => some [1], fun _ => some 42, fun _ => none⟩ : Externalities) 9 = 9 ∧
    heapPagesFor
      (⟨fun _ => some [1], fun _ => some 42, fun _ => some [1, 2]⟩ : Externalities) 9 = 9 ∧
    heapPagesFor
      (⟨fun _ => some [1], fun _ => some 42,
        fun _ => some [1, 0, 0, 0, 0, 0, 0, 0, 9]⟩ : Externalities) 9 =
      leBytes (List.take 8 [1, 0, 0, 0, 0, 0, 0, 0, 9]) ∧
    (fetch_runtime
      (⟨fun _ _ hp => Except.ok hp, fun i _ => (true, i),
        fun i _ _ _ => CallOutcome.ok [i] i, fun bs => some bs.length⟩ : EngineModel Nat Nat)
      (⟨[]⟩ : RuntimesCache Nat Nat)
      (⟨fun _ => some [1], fun _ => some 42, fun _ => none⟩ : Externalities)
      WasmExecutionMethod.Interpreted 7).2.instances =
      ainsert (WasmExecutionMethod.Interpreted, 42)
        (create_versioned_wasm_runtime
          (⟨fun _ _ hp => Except.ok hp, fun i _ => (true, i),
            fun i _ _ _ => CallOutcome.ok [i] i, fun bs => some bs.length⟩ : EngineModel Nat Nat)
          (⟨fun _ => some [1], fun _ => some 42, fun _ => none⟩ : Externalities)
          WasmExecutionMethod.Interpreted
          (heapPagesFor (⟨fun _ => some [1], fun _ => some 42, fun _ => none⟩ : Externalities) 7))
        [] := by
  refine ⟨?_, ?_, ?_, ?_⟩
  · exact c8_heap_pages.{0, 0}.1
      (⟨fun _ => some [1], fun _ => some 42, fun _ => none⟩ : Externalities) 9 rfl
  · exact c8_heap_pages.{0, 0}.2.1
      (⟨fun _ => some [1], fun _ => some 42, fun _ => some [1, 2]⟩ : Externalities) 9
      [1, 2] rfl (by decide)
  · exact c8_heap_pages.{0, 0}.2.2.1
      (⟨fun _ => some [1], fun _ => some 42,
        fun _ => some [1, 0, 0, 0, 0, 0, 0, 0, 9]⟩ : Externalities) 9
      [1, 0, 0, 0, 0, 0, 0, 0, 9] rfl (by decide)
  · exact c8_heap_pages.{0, 0}.2.2.2 Nat Nat
      (⟨fun _ _ hp => Except.ok hp, fun i _ => (true, i),
        fun i _ _ _ => CallOutcome.ok [i] i, fun bs => some bs.length⟩ : EngineModel Nat Nat)
      (⟨[]⟩ : RuntimesCache Nat Nat)
      (⟨fun _ => some [1], fun _ => some 42, fun _ => none⟩ : Externalities)
      WasmExecutionMethod.Interpreted 7 42 rfl rfl

end Wasm
